import Mathlib

/-!
Shallow embedding of `src/problem_3.py` (a Huffman coding implementation) and
proofs about it.

Modelling conventions:
* A Python `HuffmanNode` object is `HuffmanNode.mk freq char left right`;
  Python `None` is `HuffmanNode.null` (so the Python value space
  `Optional[HuffmanNode]` is the single type `HuffmanNode`).
* Python strings are `List Char`; the symbols of the input are `Char`s.
* Python exceptions are modelled with `Except PyErr`.
* The standard library `PriorityQueue` used by `build_tree` is CPython's
  `heapq` on a list: `heappush`/`heappop` with the `_siftdown`/`_siftup`
  loops are translated below.  The two unbounded `while` loops of `heapq`
  and the merge loop of `build_tree` are written with an explicit structural
  counter (`fuel`); the callers pass a counter that is large enough
  (`_siftdown` moves its index strictly down towards `startpos`, `_siftup`
  moves it strictly up towards `endpos`, and the merge loop removes one
  queue entry per iteration), and running out is the distinguished value
  `PyErr.stuck`, which is proved elsewhere in this file never to be the
  result of `build_tree`.
-/

namespace Problem3

/-- The Python exception classes the translated code can raise, plus the
`stuck` sentinel for the structural encodings of the `heapq` loops (proved
unreachable for the calls the program makes). -/
inductive PyErr where
  | typeError
  | keyError
  | valueError
  | attributeError
  | indexError
  | stuck
deriving DecidableEq, Repr

/-- A Python `HuffmanNode` object or `None`.  `null` stands for `None`;
`mk freq char left_child right_child` stands for a `HuffmanNode` instance
whose fields hold the given (final) values — in the source the children
start as `None` and internal nodes get both assigned in `build_tree`. -/
inductive HuffmanNode where
  | null : HuffmanNode
  | mk (freq : Nat) (char : Option Char) (left_child : HuffmanNode) (right_child : HuffmanNode)
deriving DecidableEq, Repr

/-- Field access `node.freq` (only ever used on actual nodes). -/
def HuffmanNode.freq : HuffmanNode → Nat
  | .null => 0
  | .mk f _ _ _ => f

/-- Field access `node.char` (only ever used on actual nodes). -/
def HuffmanNode.char : HuffmanNode → Option Char
  | .null => Option.none
  | .mk _ c _ _ => c

/-- Python `type(x) is HuffmanNode`. -/
def HuffmanNode.isNode : HuffmanNode → Bool
  | .null => false
  | .mk _ _ _ _ => true

/-- The second component of a queue entry: Python `None` (on the dummy
entry), a one-character string (the symbol, on the entries built by
`map_frequency`) or `str(p3)` (on merged entries built by `build_tree`). -/
inductive PyTag where
  | pyNone
  | str (s : List Char)
deriving DecidableEq, Repr

/-- Python `<` on strings: lexicographic comparison by code point. -/
def strLt : List Char → List Char → Bool
  | _, [] => false
  | [], _ :: _ => true
  | a :: as, b :: bs => if a = b then strLt as bs else decide (a < b)

/-- A priority-queue entry: the Python 3-tuple `(freq, tag, node)`. -/
abbrev Entry := Nat × PyTag × HuffmanNode

/-- Default entry for out-of-range list reads (never reached by the
translated index arithmetic, which mirrors CPython's in-range accesses). -/
def dEntry : Entry := (0, PyTag.pyNone, HuffmanNode.null)

/-- Python `<` on the queue's 3-tuples.  Tuples compare lexicographically;
if the integers tie and the second components are unequal strings they
decide; in every other tie case CPython falls through to `<` on either
`None`-vs-`str` or on two distinct `HuffmanNode` objects, both of which
raise `TypeError`. -/
def entryLt (a b : Entry) : Except PyErr Bool :=
  if a.1 = b.1 then
    match a.2.1, b.2.1 with
    | PyTag.str s, PyTag.str t =>
        if s = t then Except.error PyErr.typeError else Except.ok (strLt s t)
    | _, _ => Except.error PyErr.typeError
  else Except.ok (decide (a.1 < b.1))

/-- The loop of CPython `heapq._siftdown`: walk the new item up the ancestor
chain from `pos` towards `startpos`, moving larger parents down.  One unit
of `fuel` per iteration; the wrapper passes `fuel = pos`, which suffices
because the position strictly decreases each round. -/
def siftdownGo : Nat → Nat → Entry → List Entry → Nat → Except PyErr (List Entry)
  | fuel, startpos, newitem, heap, pos =>
    if startpos < pos then
      match fuel with
      | 0 => Except.error PyErr.stuck
      | fuel' + 1 =>
        match entryLt newitem (heap.getD ((pos - 1) / 2) dEntry) with
        | Except.error e => Except.error e
        | Except.ok true =>
            siftdownGo fuel' startpos newitem
              (heap.set pos (heap.getD ((pos - 1) / 2) dEntry)) ((pos - 1) / 2)
        | Except.ok false => Except.ok (heap.set pos newitem)
    else Except.ok (heap.set pos newitem)

/-- CPython `heapq._siftdown(heap, startpos, pos)`. -/
def siftdown (heap : List Entry) (startpos pos : Nat) : Except PyErr (List Entry) :=
  siftdownGo pos startpos (heap.getD pos dEntry) heap pos

/-- The loop of CPython `heapq._siftup`: walk the hole at `pos` down to the
smaller child until reaching childless positions, then place the new item
and restore with `_siftdown`.  The wrapper passes `fuel = endpos`, which
suffices because the position strictly increases each round and stays below
`endpos`. -/
def siftupGo : Nat → Nat → Nat → Entry → List Entry → Nat → Except PyErr (List Entry)
  | fuel, endpos, startpos, newitem, heap, pos =>
    if 2 * pos + 1 < endpos then
      match fuel with
      | 0 => Except.error PyErr.stuck
      | fuel' + 1 =>
        if 2 * pos + 2 < endpos then
          match entryLt (heap.getD (2 * pos + 1) dEntry) (heap.getD (2 * pos + 2) dEntry) with
          | Except.error e => Except.error e
          | Except.ok true =>
              siftupGo fuel' endpos startpos newitem
                (heap.set pos (heap.getD (2 * pos + 1) dEntry)) (2 * pos + 1)
          | Except.ok false =>
              siftupGo fuel' endpos startpos newitem
                (heap.set pos (heap.getD (2 * pos + 2) dEntry)) (2 * pos + 2)
        else
          siftupGo fuel' endpos startpos newitem
            (heap.set pos (heap.getD (2 * pos + 1) dEntry)) (2 * pos + 1)
    else siftdown (heap.set pos newitem) startpos pos

/-- CPython `heapq._siftup(heap, pos)`. -/
def siftup (heap : List Entry) (pos : Nat) : Except PyErr (List Entry) :=
  siftupGo heap.length heap.length pos (heap.getD pos dEntry) heap pos

/-- CPython `heapq.heappush` (what `PriorityQueue.put` performs): append the
item and sift it down from the last position. -/
def heappush (heap : List Entry) (item : Entry) : Except PyErr (List Entry) :=
  siftdown (heap ++ [item]) 0 heap.length

/-- CPython `heapq.heappop` (what `PriorityQueue.get` performs): pop the last
element; if the heap is still non-empty, take the root as the result, move
the last element into the root and sift it up.  Popping an empty list is
`IndexError` (`PriorityQueue.get` never does this in `build_tree`). -/
def heappop (heap : List Entry) : Except PyErr (Entry × List Entry) :=
  match heap.getLast? with
  | Option.none => Except.error PyErr.indexError
  | Option.some lastelt =>
    match heap.dropLast with
    | [] => Except.ok (lastelt, [])
    | r0 :: rs =>
      match siftup (lastelt :: rs) 0 with
      | Except.error e => Except.error e
      | Except.ok h2 => Except.ok (r0, h2)

/-- One step of the frequency dictionary build: Python's
`frequencies[char] += 1` / `frequencies[char] = 1`, on an insertion-ordered
association list (CPython dicts preserve insertion order). -/
def bumpCount : List (Char × Nat) → Char → List (Char × Nat)
  | [], c => [(c, 1)]
  | (c1, n) :: rest, c =>
      if c1 = c then (c1, n + 1) :: rest else (c1, n) :: bumpCount rest c

/-- The frequency dictionary of `map_frequency`: one `(char, count)` pair per
distinct character, in first-occurrence order. -/
def countAll (data : List Char) : List (Char × Nat) := data.foldl bumpCount []

/-- `map_frequency` from the source: the list of `(freq, char, node)` tuples,
with the synthetic `(0, None, HuffmanNode(0, None))` dummy entry prepended
when there is exactly one distinct character.  (For falsy input Python
returns the empty dict; the empty list stands for it, and `build_tree`
only looks at its length.) -/
def map_frequency (data : List Char) : List Entry :=
  if data.isEmpty then []
  else
    (if (countAll data).length = 1 then
        [((0 : Nat), PyTag.pyNone, HuffmanNode.mk 0 Option.none HuffmanNode.null HuffmanNode.null)]
      else []) ++
      (countAll data).map
        (fun p => (p.2, PyTag.str [p.1], HuffmanNode.mk p.2 (Option.some p.1) HuffmanNode.null HuffmanNode.null))

/-- The `queue.put(f)` loop of `build_tree`, in list order. -/
def pushAll : List Entry → List Entry → Except PyErr (List Entry)
  | heap, [] => Except.ok heap
  | heap, f :: rest =>
    match heappush heap f with
    | Except.error e => Except.error e
    | Except.ok h2 => pushAll h2 rest

/-- The `while queue.qsize() > 1` merge loop of `build_tree` plus the final
`queue.get()`: pop the two smallest entries, build the parent node (weight
the sum, children the popped nodes in pop order), reinsert it tagged
`str(p3)`, and finally return `root[2]`.  `fuel` is one unit per merge; the
caller passes the queue size, which suffices because each merge shrinks the
queue by one. -/
def buildLoop : Nat → List Entry → Nat → Except PyErr HuffmanNode
  | fuel, heap, p3 =>
    if 1 < heap.length then
      match fuel with
      | 0 => Except.error PyErr.stuck
      | fuel' + 1 =>
        match heappop heap with
        | Except.error e => Except.error e
        | Except.ok (lt, heap1) =>
          match heappop heap1 with
          | Except.error e => Except.error e
          | Except.ok (rt, heap2) =>
            match heappush heap2
                (lt.1 + rt.1, PyTag.str (Nat.toDigits 10 p3),
                  HuffmanNode.mk (lt.1 + rt.1) Option.none lt.2.2 rt.2.2) with
            | Except.error e => Except.error e
            | Except.ok heap3 => buildLoop fuel' heap3 (p3 + 1)
    else
      match heappop heap with
      | Except.error e => Except.error e
      | Except.ok (root, _) => Except.ok root.2.2

/-- `build_tree` from the source: `None` for an empty frequency list, else
push every entry and run the merge loop with the sequence counter at 0. -/
def build_tree (frequencies : List Entry) : Except PyErr HuffmanNode :=
  if frequencies.length = 0 then Except.ok HuffmanNode.null
  else
    match pushAll [] frequencies with
    | Except.error e => Except.error e
    | Except.ok heap => buildLoop heap.length heap 0

/-- The code dictionary of `map_codes`: a Python dict from `node.char` values
(`None` or a character) to code strings, as an insertion-ordered
association list. -/
abbrev CodeDict := List (Option Char × List Char)

/-- Python `map[k] = v` on the code dictionary. -/
def dictSet : CodeDict → Option Char → List Char → CodeDict
  | [], k, v => [(k, v)]
  | (k1, v1) :: rest, k, v =>
      if k1 = k then (k, v) :: rest else (k1, v1) :: dictSet rest k v

/-- Python `map[k]` lookup (the `Option.none` result is a `KeyError` at the
call sites). -/
def dictGet? : CodeDict → Option Char → Option (List Char)
  | [], _ => Option.none
  | (k1, v1) :: rest, k => if k1 = k then Option.some v1 else dictGet? rest k

/-- `map_codes` from the source: recursive walk appending `'0'` going left
and `'1'` going right; on each side whose child is not a `HuffmanNode`
instance, the current node's char is written with the current code.  (The
source never reaches the `None` case: `huffman_encoding` only calls it on a
real node, and the walk only recurses into instances.) -/
def map_codes : HuffmanNode → List Char → CodeDict → CodeDict
  | HuffmanNode.null, _, table => table
  | HuffmanNode.mk _ c l r, code, table =>
    let table1 :=
      if l.isNode then map_codes l (code ++ ['0']) table else dictSet table c code
    if r.isNode then map_codes r (code ++ ['1']) table1 else dictSet table1 c code

/-- The `for char in data: encoding += code_mappings[char]` loop of
`huffman_encoding`; a missing key is a `KeyError`. -/
def encodeData : List Char → CodeDict → Except PyErr (List Char)
  | [], _ => Except.ok []
  | c :: rest, table =>
    match dictGet? table (Option.some c) with
    | Option.none => Except.error PyErr.keyError
    | Option.some code =>
      match encodeData rest table with
      | Except.error e => Except.error e
      | Except.ok tail => Except.ok (code ++ tail)

/-- `huffman_encoding` from the source.  The falsy guard returns
`('', None)`; otherwise frequencies, tree, code table, then the encoding
loop.  When the tree were `None` (impossible for non-empty data),
`map_codes(None, ...)` would dereference `None.left_child`:
`AttributeError`. -/
def huffman_encoding (data : List Char) : Except PyErr (List Char × HuffmanNode) :=
  if data.isEmpty then Except.ok ([], HuffmanNode.null)
  else
    match build_tree (map_frequency data) with
    | Except.error e => Except.error e
    | Except.ok HuffmanNode.null => Except.error PyErr.attributeError
    | Except.ok (HuffmanNode.mk f c l r) =>
      match encodeData data (map_codes (HuffmanNode.mk f c l r) [] []) with
      | Except.error e => Except.error e
      | Except.ok bits => Except.ok (bits, HuffmanNode.mk f c l r)

/-- Python `int(bit)` for a one-character string: its digit value, or
`ValueError` when the character is not a digit. -/
def pyIntBit (bit : Char) : Except PyErr Nat :=
  if bit.isDigit then Except.ok (bit.toNat - 48) else Except.error PyErr.valueError

/-- The `for bit in data` loop of `huffman_decoding`, carrying the root for
the rewinds.  On `int(bit) == 0` the cursor moves to the left child if that
child is a `HuffmanNode` instance, otherwise (any other digit) to the right
child under the same test; then, if both children of the current node are
`None`, its char is appended (`None` would make `'' + None` raise
`TypeError`) and the cursor rewinds to the root.  A `None` cursor would
raise `AttributeError` on the child access. -/
def decodeLoop (tree : HuffmanNode) : List Char → HuffmanNode → Except PyErr (List Char)
  | [], _ => Except.ok []
  | bit :: rest, node =>
    match pyIntBit bit with
    | Except.error e => Except.error e
    | Except.ok b =>
      match node with
      | HuffmanNode.null => Except.error PyErr.attributeError
      | HuffmanNode.mk f c l r =>
        let node1 :=
          if b = 0 then (if l.isNode then l else HuffmanNode.mk f c l r)
          else (if r.isNode then r else HuffmanNode.mk f c l r)
        match node1 with
        | HuffmanNode.null => Except.error PyErr.attributeError
        | HuffmanNode.mk f1 c1 l1 r1 =>
          if l1 = HuffmanNode.null ∧ r1 = HuffmanNode.null then
            match c1 with
            | Option.some ch =>
              match decodeLoop tree rest tree with
              | Except.error e => Except.error e
              | Except.ok tail => Except.ok (ch :: tail)
            | Option.none => Except.error PyErr.typeError
          else decodeLoop tree rest node1

/-- `huffman_decoding` from the source: walk the bits from the tree root.
(With `tree = None` and no bits the loop body never runs and `''` is
returned; with bits it dereferences `None`.) -/
def huffman_decoding (data : List Char) (tree : HuffmanNode) : Except PyErr (List Char) :=
  decodeLoop tree data tree

/-- A Python value fed to `huffman_encoding` by the repository's drivers:
a string, `None`, a bool, or the empty dict. -/
inductive PyObj where
  | pyStr (s : List Char)
  | pyNoneV
  | pyBool (b : Bool)
  | pyEmptyDict

/-- Python `bool(data)` on those values. -/
def pyBool : PyObj → Bool
  | .pyStr s => !s.isEmpty
  | .pyNoneV => false
  | .pyBool b => b
  | .pyEmptyDict => false

/-- `huffman_encoding` on an arbitrary supported Python value: the falsy
guard fires first; a truthy non-string (only `True` here) would fail in the
`for char in data` iteration of `map_frequency` with `TypeError`. -/
def huffman_encodingObj (v : PyObj) : Except PyErr (List Char × HuffmanNode) :=
  if pyBool v then
    match v with
    | .pyStr s => huffman_encoding s
    | _ => Except.error PyErr.typeError
  else Except.ok ([], HuffmanNode.null)

/-- Whether both children are absent: the leaf test the decoder uses. -/
def isLeafB : HuffmanNode → Bool
  | HuffmanNode.mk _ _ HuffmanNode.null HuffmanNode.null => true
  | _ => false

/-- The all-or-nothing child invariant, recursively: every reachable node
has either both children present or both absent. -/
def properB : HuffmanNode → Bool
  | HuffmanNode.null => true
  | HuffmanNode.mk _ _ l r =>
    match l, r with
    | HuffmanNode.null, HuffmanNode.null => true
    | HuffmanNode.null, HuffmanNode.mk _ _ _ _ => false
    | HuffmanNode.mk _ _ _ _, HuffmanNode.null => false
    | _, _ => properB l && properB r

/-- The weight invariant, recursively: every node with both children present
has the sum of their weights. -/
def weightsOK : HuffmanNode → Bool
  | HuffmanNode.null => true
  | HuffmanNode.mk f _ l r =>
    (match l, r with
     | HuffmanNode.mk fl _ _ _, HuffmanNode.mk fr _ _ _ => decide (f = fl + fr)
     | _, _ => true) && weightsOK l && weightsOK r

/-- The multiset of chars sitting on the leaves of a tree. -/
def leafChars : HuffmanNode → Multiset (Option Char)
  | HuffmanNode.null => 0
  | HuffmanNode.mk _ c l r =>
    match l, r with
    | HuffmanNode.null, HuffmanNode.null => {c}
    | _, _ => leafChars l + leafChars r

/-- Follow a code path from a node: `'0'` goes left, `'1'` goes right,
anything else (or stepping from `None`) fails. -/
def followPath : HuffmanNode → List Char → Option HuffmanNode
  | HuffmanNode.null, _ => Option.none
  | HuffmanNode.mk f c l r, [] => Option.some (HuffmanNode.mk f c l r)
  | HuffmanNode.mk _ _ l r, b :: p =>
    if b = '0' then followPath l p
    else if b = '1' then followPath r p
    else Option.none

/-- `code1` is a prefix of `code2` (as bit strings). -/
def isCodePre : List Char → List Char → Bool
  | [], _ => true
  | _ :: _, [] => false
  | a :: as, b :: bs => a = b && isCodePre as bs

/-- The well-formedness of a queue entry `(f, tag, node)` that `build_tree`
maintains: the third component is a real node whose weight field is `f` and
which satisfies the structural invariants. -/
def entryOK (e : Entry) : Bool :=
  e.2.2.isNode && decide (e.2.2.freq = e.1) && properB e.2.2 && weightsOK e.2.2

/-- The sum of the weights of the entries of a heap. -/
def heapTotal (heap : List Entry) : Nat := (heap.map (fun e => e.1)).sum

/-- The multiset of all leaf chars across the entries of a heap. -/
def heapChars (heap : List Entry) : Multiset (Option Char) :=
  (heap.map (fun e => leafChars e.2.2)).sum

/-- The leaf-char multiset seeded by `map_frequency`: one `some c` per
distinct character of the input, plus `none` for the dummy entry in the
single-distinct-character case. -/
def seedChars (data : List Char) : Multiset (Option Char) :=
  (if (countAll data).length = 1 then {Option.none} else 0) +
    ((countAll data).map (fun p => Option.some p.1) : List (Option Char))

/-- Modelled from the spec (section 4.5, the sentence the claim C3 quotes):
a decoder step that moves the cursor only when the target child "is an
internal node (has children)".  Used to compare the specified step relation
with the code's. -/
def hasChildrenB : HuffmanNode → Bool
  | HuffmanNode.null => false
  | HuffmanNode.mk _ _ l r => l.isNode || r.isNode

/-- Modelled from the spec: the claim C3 step relation — on `'0'` move to
the left child only if it is an internal node (has children), on `'1'`
likewise to the right; then, if the cursor is a leaf, emit its symbol and
rewind. -/
def decodeSpecLoop (tree : HuffmanNode) : List Char → HuffmanNode → Except PyErr (List Char)
  | [], _ => Except.ok []
  | bit :: rest, node =>
    match node with
    | HuffmanNode.null => Except.error PyErr.attributeError
    | HuffmanNode.mk f c l r =>
      let node1 :=
        if bit = '0' then (if hasChildrenB l then l else HuffmanNode.mk f c l r)
        else (if hasChildrenB r then r else HuffmanNode.mk f c l r)
      if isLeafB node1 then
        match node1.char with
        | Option.some ch =>
          match decodeSpecLoop tree rest tree with
          | Except.error e => Except.error e
          | Except.ok tail => Except.ok (ch :: tail)
        | Option.none => Except.error PyErr.typeError
      else decodeSpecLoop tree rest node1

/-- Modelled from the spec, amended as the counterexample forces: the same
step relation but the cursor moves whenever the target child is present
(a node), internal or leaf. -/
def decodeAmendedLoop (tree : HuffmanNode) : List Char → HuffmanNode → Except PyErr (List Char)
  | [], _ => Except.ok []
  | bit :: rest, node =>
    match node with
    | HuffmanNode.null => Except.error PyErr.attributeError
    | HuffmanNode.mk f c l r =>
      let node1 :=
        if bit = '0' then (if l.isNode then l else HuffmanNode.mk f c l r)
        else (if r.isNode then r else HuffmanNode.mk f c l r)
      if isLeafB node1 then
        match node1.char with
        | Option.some ch =>
          match decodeAmendedLoop tree rest tree with
          | Except.error e => Except.error e
          | Except.ok tail => Except.ok (ch :: tail)
        | Option.none => Except.error PyErr.typeError
      else decodeAmendedLoop tree rest node1

/-- The tree `huffman_encoding` returns for the input `"ab"`: leaves `'a'`
(left, code `"0"`) and `'b'` (right, code `"1"`). -/
def abTree : HuffmanNode :=
  HuffmanNode.mk 2 Option.none
    (HuffmanNode.mk 1 (Option.some 'a') HuffmanNode.null HuffmanNode.null)
    (HuffmanNode.mk 1 (Option.some 'b') HuffmanNode.null HuffmanNode.null)

/-- The tree `huffman_encoding` returns for the input `"aaaaaa"`: the dummy
leaf (weight 0, absent symbol) on the left and the `'a'` leaf on the
right, so `'a'` has code `"1"`. -/
def singleATree : HuffmanNode :=
  HuffmanNode.mk 6 Option.none
    (HuffmanNode.mk 0 Option.none HuffmanNode.null HuffmanNode.null)
    (HuffmanNode.mk 6 (Option.some 'a') HuffmanNode.null HuffmanNode.null)

/-! ### List helper lemmas for the heap reasoning -/

theorem getD_set_ne {α : Type} (d b : α) :
    ∀ (l : List α) (i j : Nat), i ≠ j → (l.set i b).getD j d = l.getD j d := by
  intro l
  induction l with
  | nil => intro i j _; rfl
  | cons x t ih =>
    intro i j hij
    cases i with
    | zero =>
      cases j with
      | zero => exact absurd rfl hij
      | succ j1 => simp [List.getD]
    | succ i1 =>
      cases j with
      | zero => simp [List.getD]
      | succ j1 =>
        simp only [List.set, List.getD_cons_succ]
        exact ih i1 j1 (fun h => hij (by rw [h]))

theorem set_getD_self {α : Type} (d : α) :
    ∀ (l : List α) (i : Nat), i < l.length → l.set i (l.getD i d) = l := by
  intro l
  induction l with
  | nil => intro i h; simp at h
  | cons x t ih =>
    intro i h
    cases i with
    | zero => simp [List.getD]
    | succ i1 =>
      simp only [List.getD_cons_succ, List.set]
      rw [ih i1 (by simpa using h)]

theorem count_set_add {α : Type} [DecidableEq α] (d b a : α) :
    ∀ (l : List α) (i : Nat), i < l.length →
      (l.set i b).count a + (if l.getD i d = a then 1 else 0)
        = l.count a + (if b = a then 1 else 0) := by
  intro l
  induction l with
  | nil => intro i h; simp at h
  | cons x t ih =>
    intro i h
    cases i with
    | zero =>
      simp only [List.set, List.count_cons, List.getD_cons_zero, beq_iff_eq]
      split_ifs <;> omega
    | succ i1 =>
      have ih1 := ih i1 (by simpa using h)
      simp only [List.set, List.count_cons, List.getD_cons_succ, beq_iff_eq] at ih1 ⊢
      split_ifs at ih1 ⊢ <;> omega

theorem set_set_perm {α : Type} [DecidableEq α] (d x : α) (l : List α) (i j : Nat)
    (hij : i ≠ j) (hi : i < l.length) (hj : j < l.length) :
    ((l.set i (l.getD j d)).set j x).Perm (l.set i x) := by
  rw [List.perm_iff_count]
  intro a
  have h1 := count_set_add d x a (l.set i (l.getD j d)) j (by simpa using hj)
  have h2 := count_set_add d (l.getD j d) a l i hi
  have h3 := count_set_add d x a l i hi
  rw [getD_set_ne d (l.getD j d) l i j hij] at h1
  split_ifs at h1 h2 h3 <;> omega

theorem set_perm_cons {α : Type} [DecidableEq α] (x : α) :
    ∀ (l : List α) (i : Nat), i < l.length → (l.set i x).Perm (x :: l.eraseIdx i) := by
  intro l
  induction l with
  | nil => intro i h; simp at h
  | cons y t ih =>
    intro i h
    cases i with
    | zero => simp
    | succ i1 =>
      simp only [List.set, List.eraseIdx]
      exact (List.Perm.cons y (ih i1 (by simpa using h))).trans (List.Perm.swap x y _)

/-! ### Length, permutation and error lemmas for the `heapq` translation -/

theorem siftdownGo_length :
    ∀ (fuel startpos : Nat) (newitem : Entry) (heap h2 : List Entry) (pos : Nat),
      siftdownGo fuel startpos newitem heap pos = Except.ok h2 →
      h2.length = heap.length := by
  intro fuel
  induction fuel with
  | zero =>
    intro startpos newitem heap h2 pos h
    simp only [siftdownGo] at h
    split at h
    · exact absurd h (by simp)
    · cases h; simp
  | succ f ih =>
    intro startpos newitem heap h2 pos h
    simp only [siftdownGo] at h
    split at h
    · split at h
      · exact absurd h (by simp)
      · have := ih _ _ _ _ _ h
        simpa using this
      · cases h; simp
    · cases h; simp

theorem siftdownGo_perm :
    ∀ (fuel startpos : Nat) (newitem : Entry) (heap h2 : List Entry) (pos : Nat),
      pos < heap.length →
      siftdownGo fuel startpos newitem heap pos = Except.ok h2 →
      h2.Perm (heap.set pos newitem) := by
  intro fuel
  induction fuel with
  | zero =>
    intro startpos newitem heap h2 pos _ h
    simp only [siftdownGo] at h
    split at h
    · exact absurd h (by simp)
    · cases h; exact List.Perm.refl _
  | succ f ih =>
    intro startpos newitem heap h2 pos hpos h
    simp only [siftdownGo] at h
    split at h
    · rename_i hlt
      split at h
      · exact absurd h (by simp)
      · have hpp : (pos - 1) / 2 < pos := by omega
        have hperm := ih _ _ _ _ _ (by simpa using Nat.lt_trans hpp hpos) h
        refine hperm.trans ?_
        exact set_set_perm dEntry newitem heap pos ((pos - 1) / 2)
          (by omega) hpos (Nat.lt_trans hpp hpos)
      · cases h; exact List.Perm.refl _
    · cases h; exact List.Perm.refl _

theorem siftdownGo_err :
    ∀ (fuel startpos : Nat) (newitem : Entry) (heap : List Entry) (pos : Nat) (e : PyErr),
      pos - startpos ≤ fuel →
      siftdownGo fuel startpos newitem heap pos = Except.error e →
      e = PyErr.typeError := by
  intro fuel
  induction fuel with
  | zero =>
    intro startpos newitem heap pos e hf h
    simp only [siftdownGo] at h
    split at h
    · omega
    · exact absurd h (by simp)
  | succ f ih =>
    intro startpos newitem heap pos e hf h
    simp only [siftdownGo] at h
    split at h
    · rename_i hlt
      split at h
      · rename_i e1 he1
        cases h
        simp only [entryLt] at he1
        split at he1
        · split at he1
          · split at he1
            · cases he1; rfl
            · exact absurd he1 (by simp)
          · cases he1; rfl
        · exact absurd he1 (by simp)
      · have hd : (pos - 1) / 2 ≤ pos - 1 := Nat.div_le_self _ _
        exact ih _ _ _ _ _ (by omega) h
      · exact absurd h (by simp)
    · exact absurd h (by simp)

theorem siftdown_length (heap h2 : List Entry) (startpos pos : Nat)
    (h : siftdown heap startpos pos = Except.ok h2) : h2.length = heap.length :=
  siftdownGo_length _ _ _ _ _ _ h

theorem siftdown_perm (heap h2 : List Entry) (startpos pos : Nat)
    (hpos : pos < heap.length)
    (h : siftdown heap startpos pos = Except.ok h2) : h2.Perm heap := by
  have := siftdownGo_perm _ _ _ _ _ _ hpos h
  rwa [set_getD_self dEntry heap pos hpos] at this

theorem siftdown_err (heap : List Entry) (startpos pos : Nat) (e : PyErr)
    (h : siftdown heap startpos pos = Except.error e) : e = PyErr.typeError :=
  siftdownGo_err _ _ _ _ _ _ (by omega) h

theorem siftupGo_length :
    ∀ (fuel endpos startpos : Nat) (newitem : Entry) (heap h2 : List Entry) (pos : Nat),
      siftupGo fuel endpos startpos newitem heap pos = Except.ok h2 →
      h2.length = heap.length := by
  intro fuel
  induction fuel with
  | zero =>
    intro endpos startpos newitem heap h2 pos h
    simp only [siftupGo] at h
    split at h
    · exact absurd h (by simp)
    · have := siftdown_length _ _ _ _ h
      simpa using this
  | succ f ih =>
    intro endpos startpos newitem heap h2 pos h
    simp only [siftupGo] at h
    split at h
    · split at h
      · split at h
        · exact absurd h (by simp)
        · have := ih _ _ _ _ _ _ h
          simpa using this
        · have := ih _ _ _ _ _ _ h
          simpa using this
      · have := ih _ _ _ _ _ _ h
        simpa using this
    · have := siftdown_length _ _ _ _ h
      simpa using this

theorem siftupGo_perm :
    ∀ (fuel endpos startpos : Nat) (newitem : Entry) (heap h2 : List Entry) (pos : Nat),
      pos < heap.length → endpos ≤ heap.length →
      siftupGo fuel endpos startpos newitem heap pos = Except.ok h2 →
      h2.Perm (heap.set pos newitem) := by
  intro fuel
  induction fuel with
  | zero =>
    intro endpos startpos newitem heap h2 pos hpos _ h
    simp only [siftupGo] at h
    split at h
    · exact absurd h (by simp)
    · exact siftdown_perm _ _ _ _ (by simpa using hpos) h
  | succ f ih =>
    intro endpos startpos newitem heap h2 pos hpos hend h
    simp only [siftupGo] at h
    split at h
    · rename_i h1
      split at h
      · rename_i h2c
        split at h
        · exact absurd h (by simp)
        · have hcp : 2 * pos + 1 < heap.length := by omega
          have hperm := ih _ _ _ _ _ _ (by simpa using hcp) (by simpa using hend) h
          exact hperm.trans
            (set_set_perm dEntry newitem heap pos (2 * pos + 1) (by omega) hpos hcp)
        · have hcp : 2 * pos + 2 < heap.length := by omega
          have hperm := ih _ _ _ _ _ _ (by simpa using hcp) (by simpa using hend) h
          exact hperm.trans
            (set_set_perm dEntry newitem heap pos (2 * pos + 2) (by omega) hpos hcp)
      · have hcp : 2 * pos + 1 < heap.length := by omega
        have hperm := ih _ _ _ _ _ _ (by simpa using hcp) (by simpa using hend) h
        exact hperm.trans
          (set_set_perm dEntry newitem heap pos (2 * pos + 1) (by omega) hpos hcp)
    · exact siftdown_perm _ _ _ _ (by simpa using hpos) h

theorem siftupGo_err :
    ∀ (fuel endpos startpos : Nat) (newitem : Entry) (heap : List Entry) (pos : Nat) (e : PyErr),
      endpos - pos ≤ fuel →
      siftupGo fuel endpos startpos newitem heap pos = Except.error e →
      e = PyErr.typeError := by
  intro fuel
  induction fuel with
  | zero =>
    intro endpos startpos newitem heap pos e hf h
    simp only [siftupGo] at h
    split at h
    · omega
    · exact siftdown_err _ _ _ _ h
  | succ f ih =>
    intro endpos startpos newitem heap pos e hf h
    simp only [siftupGo] at h
    split at h
    · rename_i h1
      split at h
      · split at h
        · rename_i e1 he1
          cases h
          simp only [entryLt] at he1
          split at he1
          · split at he1
            · split at he1
              · cases he1; rfl
              · exact absurd he1 (by simp)
            · cases he1; rfl
          · exact absurd he1 (by simp)
        · exact ih _ _ _ _ _ _ (by omega) h
        · exact ih _ _ _ _ _ _ (by omega) h
      · exact ih _ _ _ _ _ _ (by omega) h
    · exact siftdown_err _ _ _ _ h

theorem siftup_length (heap h2 : List Entry) (pos : Nat)
    (h : siftup heap pos = Except.ok h2) : h2.length = heap.length :=
  siftupGo_length _ _ _ _ _ _ _ h

theorem siftup_perm (heap h2 : List Entry) (pos : Nat) (hpos : pos < heap.length)
    (h : siftup heap pos = Except.ok h2) : h2.Perm heap := by
  have := siftupGo_perm _ _ _ _ _ _ _ hpos (Nat.le_refl _) h
  rwa [set_getD_self dEntry heap pos hpos] at this

theorem siftup_err (heap : List Entry) (pos : Nat) (e : PyErr)
    (h : siftup heap pos = Except.error e) : e = PyErr.typeError :=
  siftupGo_err _ _ _ _ _ _ _ (by omega) h

theorem heappush_length (heap h2 : List Entry) (item : Entry)
    (h : heappush heap item = Except.ok h2) : h2.length = heap.length + 1 := by
  have := siftdown_length _ _ _ _ h
  simpa using this

theorem heappush_perm (heap h2 : List Entry) (item : Entry)
    (h : heappush heap item = Except.ok h2) : h2.Perm (item :: heap) := by
  have hpos : heap.length < (heap ++ [item]).length := by simp
  exact (siftdown_perm _ _ _ _ hpos h).trans (List.perm_append_singleton item heap)

theorem heappush_err (heap : List Entry) (item : Entry) (e : PyErr)
    (h : heappush heap item = Except.error e) : e = PyErr.typeError :=
  siftdown_err _ _ _ _ h

theorem eq_dropLast_concat {α : Type} (l : List α) (x : α) (h : l.getLast? = some x) :
    l = l.dropLast ++ [x] := by
  have hne : l ≠ [] := by intro he; subst he; simp at h
  have h2 := List.dropLast_concat_getLast hne
  have h3 : l.getLast hne = x := by
    rw [List.getLast?_eq_getLast l hne] at h
    exact Option.some.inj h
  rw [← h3]
  exact h2.symm

theorem heappop_spec (heap : List Entry) (x : Entry) (h2 : List Entry)
    (h : heappop heap = Except.ok (x, h2)) :
    heap.Perm (x :: h2) ∧ heap.length = h2.length + 1 := by
  simp only [heappop] at h
  split at h
  · exact absurd h (by simp)
  · rename_i le hle
    have hl := eq_dropLast_concat heap le hle
    split at h
    · rename_i hdrop
      cases h
      rw [hl, hdrop]
      exact ⟨List.Perm.refl _, by simp⟩
    · rename_i r0 rs hdrop
      split at h
      · exact absurd h (by simp)
      · rename_i hh hsift
        cases h
        have hperm := siftup_perm _ _ _ (by simp) hsift
        have hlen := siftup_length _ _ _ hsift
        constructor
        · rw [hl, hdrop]
          exact (List.Perm.cons x (List.perm_append_singleton le rs)).trans
            (List.Perm.cons x hperm.symm)
        · have hlh : heap.length = rs.length + 2 := by
            rw [hl, hdrop]; simp
          simp at hlen
          omega

theorem heappop_err (heap : List Entry) (e : PyErr) (hne : heap ≠ [])
    (h : heappop heap = Except.error e) : e = PyErr.typeError := by
  simp only [heappop] at h
  split at h
  · rename_i hle
    exact absurd (List.getLast?_eq_getLast heap hne) (by rw [hle]; simp)
  · split at h
    · exact absurd h (by simp)
    · split at h
      · rename_i e1 hsift
        cases h
        exact siftup_err _ _ _ hsift
      · exact absurd h (by simp)

theorem pushAll_spec :
    ∀ (entries heap h2 : List Entry), pushAll heap entries = Except.ok h2 →
      h2.Perm (entries ++ heap) ∧ h2.length = heap.length + entries.length := by
  intro entries
  induction entries with
  | nil =>
    intro heap h2 h
    simp only [pushAll] at h
    cases h
    exact ⟨by simp, by simp⟩
  | cons f rest ih =>
    intro heap h2 h
    simp only [pushAll] at h
    split at h
    · exact absurd h (by simp)
    · rename_i hh hpush
      have hperm1 := heappush_perm _ _ _ hpush
      have hlen1 := heappush_length _ _ _ hpush
      obtain ⟨hperm2, hlen2⟩ := ih _ _ h
      constructor
      · exact hperm2.trans ((List.Perm.append_left rest hperm1).trans List.perm_middle)
      · simp at hlen2 ⊢
        omega

theorem properB_mk_nodes (f : Nat) (c : Option Char) (l r : HuffmanNode)
    (hl : l.isNode = true) (hr : r.isNode = true) :
    properB (HuffmanNode.mk f c l r) = (properB l && properB r) := by
  cases l <;> cases r <;> simp_all [HuffmanNode.isNode, properB]

theorem weightsOK_mk_nodes (f : Nat) (c : Option Char) (l r : HuffmanNode)
    (hl : l.isNode = true) (hr : r.isNode = true) :
    weightsOK (HuffmanNode.mk f c l r)
      = (decide (f = l.freq + r.freq) && weightsOK l && weightsOK r) := by
  cases l <;> cases r <;> simp_all [HuffmanNode.isNode, HuffmanNode.freq, weightsOK]

theorem leafChars_mk_node (f : Nat) (c : Option Char) (l r : HuffmanNode)
    (hl : l.isNode = true) :
    leafChars (HuffmanNode.mk f c l r) = leafChars l + leafChars r := by
  cases l <;> cases r <;> simp_all [HuffmanNode.isNode, leafChars]

theorem isLeafB_mk_node (f : Nat) (c : Option Char) (l r : HuffmanNode)
    (hl : l.isNode = true) : isLeafB (HuffmanNode.mk f c l r) = false := by
  cases l <;> simp_all [HuffmanNode.isNode, isLeafB]

theorem entryOK_iff (e : Entry) :
    entryOK e = true ↔
      e.2.2.isNode = true ∧ e.2.2.freq = e.1 ∧ properB e.2.2 = true ∧ weightsOK e.2.2 = true := by
  simp [entryOK, Bool.and_assoc, and_assoc]

theorem heapTotal_perm (l1 l2 : List Entry) (h : l1.Perm l2) : heapTotal l1 = heapTotal l2 :=
  List.Perm.sum_eq (h.map _)

theorem heapChars_perm (l1 l2 : List Entry) (h : l1.Perm l2) : heapChars l1 = heapChars l2 :=
  List.Perm.sum_eq (h.map _)

theorem heapTotal_cons (x : Entry) (l : List Entry) :
    heapTotal (x :: l) = x.1 + heapTotal l := by simp [heapTotal]

theorem heapChars_cons (x : Entry) (l : List Entry) :
    heapChars (x :: l) = leafChars x.2.2 + heapChars l := by simp [heapChars]

theorem buildLoop_final (heap : List Entry) (x : Entry) (hx : List Entry)
    (hpop : heappop heap = Except.ok (x, hx)) (hlen : ¬ 1 < heap.length)
    (hOK : ∀ e ∈ heap, entryOK e = true) :
    x.2.2.isNode = true ∧ properB x.2.2 = true ∧ weightsOK x.2.2 = true ∧
      x.2.2.freq = heapTotal heap ∧ leafChars x.2.2 = heapChars heap ∧
      (2 ≤ heap.length → isLeafB x.2.2 = false) := by
  obtain ⟨hperm, hl⟩ := heappop_spec _ _ _ hpop
  have hlen1 : heap.length = 1 := by omega
  have hx2 : hx = [] := List.length_eq_zero.mp (by omega)
  have hxmem : x ∈ heap := hperm.mem_iff.mpr (List.mem_cons_self x hx)
  have hek := (entryOK_iff x).mp (hOK _ hxmem)
  have hsingle : heap = [x] :=
    List.perm_singleton.mp (by rw [hx2] at hperm; exact hperm)
  refine ⟨hek.1, hek.2.2.1, hek.2.2.2, ?_, ?_, ?_⟩
  · rw [hsingle, heapTotal_cons]
    simp [heapTotal, hek.2.1]
  · rw [hsingle, heapChars_cons]
    simp [heapChars]
  · intro habs
    omega

theorem buildLoop_singleton (fuel p3 : Nat) (x : Entry) :
    buildLoop fuel [x] p3 = Except.ok x.2.2 := by
  cases fuel <;> simp [buildLoop, heappop]

theorem buildLoop_ok :
    ∀ (fuel : Nat) (heap : List Entry) (p3 : Nat) (root : HuffmanNode),
      buildLoop fuel heap p3 = Except.ok root →
      (∀ e ∈ heap, entryOK e = true) →
      root.isNode = true ∧ properB root = true ∧ weightsOK root = true ∧
        root.freq = heapTotal heap ∧ leafChars root = heapChars heap ∧
        (2 ≤ heap.length → isLeafB root = false) := by
  intro fuel
  induction fuel with
  | zero =>
    intro heap p3 root h hOK
    simp only [buildLoop] at h
    split at h
    · exact absurd h (by simp)
    · rename_i hlen
      split at h
      · exact absurd h (by simp)
      · rename_i x hx hpop
        cases h
        exact buildLoop_final heap x hx hpop hlen hOK
  | succ f ih =>
    intro heap p3 root h hOK
    simp only [buildLoop] at h
    split at h
    · rename_i hlen
      split at h
      · exact absurd h (by simp)
      · rename_i lt heap1 hpop1
        split at h
        · exact absurd h (by simp)
        · rename_i rt heap2 hpop2
          split at h
          · exact absurd h (by simp)
          · rename_i heap3 hpush
            obtain ⟨hperm1, hlen1⟩ := heappop_spec _ _ _ hpop1
            obtain ⟨hperm2, hlen2⟩ := heappop_spec _ _ _ hpop2
            have hperm3 := heappush_perm _ _ _ hpush
            have hlen3 := heappush_length _ _ _ hpush
            have hltOK := hOK _ (hperm1.mem_iff.mpr (List.mem_cons_self lt heap1))
            have hrtOK : entryOK rt = true :=
              hOK _ (hperm1.mem_iff.mpr (List.mem_cons_of_mem lt
                (hperm2.mem_iff.mpr (List.mem_cons_self rt heap2))))
            have hheap2OK : ∀ e ∈ heap2, entryOK e = true := fun e he =>
              hOK _ (hperm1.mem_iff.mpr (List.mem_cons_of_mem lt
                (hperm2.mem_iff.mpr (List.mem_cons_of_mem rt he))))
            have hlt := (entryOK_iff lt).mp hltOK
            have hrt := (entryOK_iff rt).mp hrtOK
            have hpeOK : entryOK (lt.1 + rt.1, PyTag.str (Nat.toDigits 10 p3),
                HuffmanNode.mk (lt.1 + rt.1) Option.none lt.2.2 rt.2.2) = true := by
              rw [entryOK_iff]
              refine ⟨rfl, rfl, ?_, ?_⟩
              · rw [properB_mk_nodes _ _ _ _ hlt.1 hrt.1]
                simp [hlt.2.2.1, hrt.2.2.1]
              · rw [weightsOK_mk_nodes _ _ _ _ hlt.1 hrt.1]
                simp [hlt.2.1, hrt.2.1, hlt.2.2.2, hrt.2.2.2]
            have hheap3OK : ∀ e ∈ heap3, entryOK e = true := by
              intro e he
              rcases List.mem_cons.mp (hperm3.mem_iff.mp he) with he1 | he2
              · rw [he1]; exact hpeOK
              · exact hheap2OK _ he2
            obtain ⟨r1, r2, r3, r4, r5, r6⟩ := ih _ _ _ h hheap3OK
            have htot : heapTotal heap3 = heapTotal heap := by
              rw [heapTotal_perm _ _ hperm3, heapTotal_cons,
                  heapTotal_perm _ _ hperm1, heapTotal_cons,
                  heapTotal_perm _ _ hperm2, heapTotal_cons]
              omega
            have hchars : heapChars heap3 = heapChars heap := by
              rw [heapChars_perm _ _ hperm3, heapChars_cons,
                  heapChars_perm _ _ hperm1, heapChars_cons,
                  heapChars_perm _ _ hperm2, heapChars_cons]
              rw [leafChars_mk_node _ _ _ _ hlt.1]
              exact (add_assoc _ _ _)
            refine ⟨r1, r2, r3, by rw [r4, htot], by rw [r5, hchars], ?_⟩
            intro _
            by_cases h2l : 2 ≤ heap3.length
            · exact r6 h2l
            · have hh2 : heap2 = [] := by
                cases hc : heap2 with
                | nil => rfl
                | cons a b =>
                  rw [hc] at hlen3
                  simp at hlen3
                  omega
              have hsingle3 : heap3 = [(lt.1 + rt.1, PyTag.str (Nat.toDigits 10 p3),
                  HuffmanNode.mk (lt.1 + rt.1) Option.none lt.2.2 rt.2.2)] := by
                rw [hh2] at hperm3
                exact List.perm_singleton.mp hperm3
              rw [hsingle3, buildLoop_singleton] at h
              cases h
              exact isLeafB_mk_node _ _ _ _ hlt.1
    · rename_i hlen
      split at h
      · exact absurd h (by simp)
      · rename_i x hx hpop
        cases h
        exact buildLoop_final heap x hx hpop hlen hOK

theorem pushAll_err :
    ∀ (entries heap : List Entry) (e : PyErr), pushAll heap entries = Except.error e →
      e = PyErr.typeError := by
  intro entries
  induction entries with
  | nil => intro heap e h; simp [pushAll] at h
  | cons f rest ih =>
    intro heap e h
    simp only [pushAll] at h
    split at h
    · rename_i e1 hpush
      cases h
      exact heappush_err _ _ _ hpush
    · exact ih _ _ h

theorem buildLoop_err :
    ∀ (fuel : Nat) (heap : List Entry) (p3 : Nat) (e : PyErr),
      heap.length ≤ fuel → 1 ≤ heap.length →
      buildLoop fuel heap p3 = Except.error e → e = PyErr.typeError := by
  intro fuel
  induction fuel with
  | zero =>
    intro heap p3 e hf h1 h
    omega
  | succ f ih =>
    intro heap p3 e hf h1 h
    have hne : heap ≠ [] := by
      intro habs
      rw [habs] at h1
      simp at h1
    simp only [buildLoop] at h
    split at h
    · rename_i hlen
      split at h
      · rename_i e1 hpop1
        cases h
        exact heappop_err _ _ hne hpop1
      · rename_i lt heap1 hpop1
        obtain ⟨hperm1, hlen1⟩ := heappop_spec _ _ _ hpop1
        have hne1 : heap1 ≠ [] := by
          intro habs
          rw [habs] at hlen1
          simp at hlen1
          omega
        split at h
        · rename_i e1 hpop2
          cases h
          exact heappop_err _ _ hne1 hpop2
        · rename_i rt heap2 hpop2
          obtain ⟨hperm2, hlen2⟩ := heappop_spec _ _ _ hpop2
          split at h
          · rename_i e1 hpush
            cases h
            exact heappush_err _ _ _ hpush
          · rename_i heap3 hpush
            have hlen3 := heappush_length _ _ _ hpush
            exact ih _ _ _ (by omega) (by omega) h
    · rename_i hlen
      split at h
      · rename_i e1 hpop
        cases h
        exact heappop_err _ _ hne hpop
      · exact absurd h (by simp)

/-! ### Frequency-map lemmas -/

theorem bumpCount_keys :
    ∀ (acc : List (Char × Nat)) (c k : Char),
      k ∈ (bumpCount acc c).map Prod.fst ↔ (k = c ∨ k ∈ acc.map Prod.fst) := by
  intro acc
  induction acc with
  | nil => intro c k; simp [bumpCount]
  | cons p rest ih =>
    intro c k
    obtain ⟨c1, n1⟩ := p
    by_cases hc : c1 = c
    · subst hc
      simp [bumpCount]
    · simp [bumpCount, hc, ih]
      tauto

theorem foldl_bumpCount_keys :
    ∀ (l : List Char) (acc : List (Char × Nat)) (k : Char),
      k ∈ (l.foldl bumpCount acc).map Prod.fst ↔ (k ∈ l ∨ k ∈ acc.map Prod.fst) := by
  intro l
  induction l with
  | nil => intro acc k; simp
  | cons d t ih =>
    intro acc k
    simp only [List.foldl_cons, ih, bumpCount_keys, List.mem_cons]
    tauto

theorem countAll_keys (data : List Char) (k : Char) :
    k ∈ (countAll data).map Prod.fst ↔ k ∈ data := by
  have h := foldl_bumpCount_keys data [] k
  simp only [List.map_nil, List.not_mem_nil, or_false] at h
  exact h

theorem bumpCount_sum (acc : List (Char × Nat)) (c : Char) :
    ((bumpCount acc c).map Prod.snd).sum = ((acc.map Prod.snd)).sum + 1 := by
  induction acc with
  | nil => simp [bumpCount]
  | cons p rest ih =>
    obtain ⟨c1, n1⟩ := p
    by_cases hc : c1 = c
    · subst hc; simp [bumpCount]; omega
    · simp [bumpCount, hc, ih]; omega

theorem foldl_bumpCount_sum :
    ∀ (l : List Char) (acc : List (Char × Nat)),
      ((l.foldl bumpCount acc).map Prod.snd).sum = (acc.map Prod.snd).sum + l.length := by
  intro l
  induction l with
  | nil => intro acc; simp
  | cons d t ih =>
    intro acc
    simp only [List.foldl_cons, ih, bumpCount_sum, List.length_cons]
    omega

theorem countAll_sum (data : List Char) :
    ((countAll data).map Prod.snd).sum = data.length := by
  simp [countAll, foldl_bumpCount_sum]

theorem countAll_ne_nil (data : List Char) (h : data ≠ []) : countAll data ≠ [] := by
  cases data with
  | nil => exact absurd rfl h
  | cons d t =>
    intro habs
    have := (countAll_keys (d :: t) d).mpr (by simp)
    rw [habs] at this
    simp at this

theorem map_frequency_length (data : List Char) (h : data ≠ []) :
    2 ≤ (map_frequency data).length := by
  have hne := countAll_ne_nil data h
  have h1 : 1 ≤ (countAll data).length := by
    cases hc : countAll data with
    | nil => exact absurd hc hne
    | cons a b => simp
  simp only [map_frequency, List.isEmpty_eq_true]
  rw [if_neg h]
  by_cases hl : (countAll data).length = 1
  · rw [if_pos hl]
    simp [hl]
  · rw [if_neg hl]
    simp
    omega

theorem map_frequency_entryOK (data : List Char) :
    ∀ e ∈ map_frequency data, entryOK e = true := by
  intro e he
  simp only [map_frequency] at he
  split at he
  · simp at he
  · rcases List.mem_append.mp he with h1 | h2
    · split at h1
      · simp at h1
        rw [h1]
        rfl
      · simp at h1
    · obtain ⟨p, _, hp⟩ := List.mem_map.mp h2
      rw [← hp]
      simp [entryOK, properB, weightsOK, HuffmanNode.isNode, HuffmanNode.freq]

theorem heapTotal_append (a b : List Entry) :
    heapTotal (a ++ b) = heapTotal a + heapTotal b := by
  simp [heapTotal]

theorem heapChars_append (a b : List Entry) :
    heapChars (a ++ b) = heapChars a + heapChars b := by
  simp [heapChars]

theorem heapTotal_map_frequency (data : List Char) (h : data ≠ []) :
    heapTotal (map_frequency data) = data.length := by
  simp only [map_frequency, List.isEmpty_eq_true]
  rw [if_neg h, heapTotal_append]
  have h2 : heapTotal ((countAll data).map
      (fun p => (p.2, PyTag.str [p.1],
        HuffmanNode.mk p.2 (Option.some p.1) HuffmanNode.null HuffmanNode.null)))
      = data.length := by
    rw [← countAll_sum data]
    simp only [heapTotal, List.map_map]
    rfl
  rw [h2]
  split <;> simp [heapTotal]

theorem sum_singleton_multisets :
    ∀ (l : List (Option Char)),
      (l.map (fun k => ({k} : Multiset (Option Char)))).sum = (l : Multiset (Option Char)) := by
  intro l
  induction l with
  | nil => simp
  | cons a t ih => simp [ih]

theorem heapChars_map_frequency (data : List Char) (h : data ≠ []) :
    heapChars (map_frequency data) = seedChars data := by
  simp only [map_frequency, seedChars, List.isEmpty_eq_true]
  rw [if_neg h, heapChars_append]
  have h2 : heapChars ((countAll data).map
      (fun p => (p.2, PyTag.str [p.1],
        HuffmanNode.mk p.2 (Option.some p.1) HuffmanNode.null HuffmanNode.null)))
      = (((countAll data).map (fun p => Option.some p.1)) : List (Option Char)) := by
    rw [← sum_singleton_multisets ((countAll data).map (fun p => Option.some p.1))]
    simp only [heapChars, List.map_map]
    rfl
  rw [h2]
  split <;> simp [heapChars, leafChars]

theorem build_tree_ok (fs : List Entry) (root : HuffmanNode)
    (h : build_tree fs = Except.ok root)
    (hOK : ∀ e ∈ fs, entryOK e = true) (hlen : 2 ≤ fs.length) :
    root.isNode = true ∧ properB root = true ∧ weightsOK root = true ∧
      root.freq = heapTotal fs ∧ leafChars root = heapChars fs ∧ isLeafB root = false := by
  simp only [build_tree] at h
  rw [if_neg (by omega)] at h
  split at h
  · exact absurd h (by simp)
  · rename_i heap hpush
    obtain ⟨hperm, hlenp⟩ := pushAll_spec _ _ _ hpush
    rw [List.append_nil] at hperm
    have hOK2 : ∀ e ∈ heap, entryOK e = true := fun e he => hOK _ (hperm.mem_iff.mp he)
    obtain ⟨r1, r2, r3, r4, r5, r6⟩ := buildLoop_ok _ _ _ _ h hOK2
    refine ⟨r1, r2, r3, ?_, ?_, ?_⟩
    · rw [r4, heapTotal_perm _ _ hperm]
    · rw [r5, heapChars_perm _ _ hperm]
    · exact r6 (by rw [hperm.length_eq]; omega)

theorem build_tree_data (data : List Char) (root : HuffmanNode) (hne : data ≠ [])
    (h : build_tree (map_frequency data) = Except.ok root) :
    root.isNode = true ∧ properB root = true ∧ weightsOK root = true ∧
      root.freq = data.length ∧ leafChars root = seedChars data ∧ isLeafB root = false := by
  obtain ⟨r1, r2, r3, r4, r5, r6⟩ :=
    build_tree_ok _ _ h (map_frequency_entryOK data) (map_frequency_length data hne)
  exact ⟨r1, r2, r3, by rw [r4, heapTotal_map_frequency data hne],
    by rw [r5, heapChars_map_frequency data hne], r6⟩

theorem build_tree_err (fs : List Entry) (e : PyErr) (hne : fs ≠ [])
    (h : build_tree fs = Except.error e) : e = PyErr.typeError := by
  simp only [build_tree] at h
  rw [if_neg (by simp [hne])] at h
  split at h
  · rename_i e1 hpush
    cases h
    exact pushAll_err _ _ _ hpush
  · rename_i heap hpush
    obtain ⟨hperm, hlenp⟩ := pushAll_spec _ _ _ hpush
    have h1 : 1 ≤ heap.length := by
      rw [List.append_nil] at hperm
      rw [hperm.length_eq]
      cases fs with
      | nil => exact absurd rfl hne
      | cons a b => simp
    exact buildLoop_err _ _ _ _ (Nat.le_refl _) h1 h

/-! ### Code-dictionary and `map_codes` lemmas -/

theorem dictGet_dictSet_self :
    ∀ (m : CodeDict) (k : Option Char) (v : List Char),
      dictGet? (dictSet m k v) k = Option.some v := by
  intro m
  induction m with
  | nil => intro k v; simp [dictSet, dictGet?]
  | cons p rest ih =>
    intro k v
    obtain ⟨k1, v1⟩ := p
    by_cases hk : k1 = k
    · simp [dictSet, dictGet?, hk]
    · simp [dictSet, dictGet?, hk, ih]

theorem dictGet_dictSet_ne :
    ∀ (m : CodeDict) (k k2 : Option Char) (v : List Char), k2 ≠ k →
      dictGet? (dictSet m k v) k2 = dictGet? m k2 := by
  intro m
  induction m with
  | nil =>
    intro k k2 v hne
    simp only [dictSet, dictGet?]
    rw [if_neg (fun habs => hne habs.symm)]
  | cons p rest ih =>
    intro k k2 v hne
    obtain ⟨k1, v1⟩ := p
    by_cases hk : k1 = k
    · subst hk
      simp only [dictSet, if_pos rfl, dictGet?]
      rw [if_neg (fun habs => hne habs.symm), if_neg (fun habs => hne habs.symm)]
    · simp only [dictSet, if_neg hk, dictGet?]
      by_cases hk2 : k1 = k2
      · simp [hk2]
      · simp [hk2, ih _ _ _ hne]

theorem map_codes_leaf_eq (f : Nat) (c : Option Char) (code : List Char) (m : CodeDict) :
    map_codes (HuffmanNode.mk f c HuffmanNode.null HuffmanNode.null) code m
      = dictSet (dictSet m c code) c code := rfl

theorem map_codes_node_eq (f f1 f2 : Nat) (c c1 c2 : Option Char)
    (l1 r1 l2 r2 : HuffmanNode) (code : List Char) (m : CodeDict) :
    map_codes (HuffmanNode.mk f c
        (HuffmanNode.mk f1 c1 l1 r1) (HuffmanNode.mk f2 c2 l2 r2)) code m
      = map_codes (HuffmanNode.mk f2 c2 l2 r2) (code ++ ['1'])
          (map_codes (HuffmanNode.mk f1 c1 l1 r1) (code ++ ['0']) m) := rfl

theorem leafChars_mk_node_r (f : Nat) (c : Option Char) (l r : HuffmanNode)
    (hr : r.isNode = true) :
    leafChars (HuffmanNode.mk f c l r) = leafChars l + leafChars r := by
  cases l <;> cases r <;> simp_all [HuffmanNode.isNode, leafChars]

theorem followPath_append :
    ∀ (p : List Char) (t : HuffmanNode) (q : List Char),
      followPath t (p ++ q)
        = (match followPath t p with
           | Option.some n => followPath n q
           | Option.none => Option.none) := by
  intro p
  induction p with
  | nil =>
    intro t q
    cases t <;> simp [followPath]
  | cons b p1 ih =>
    intro t q
    cases t with
    | null => simp [followPath]
    | mk f c l r =>
      by_cases hb0 : b = '0'
      · simp [followPath, hb0, ih]
      · by_cases hb1 : b = '1'
        · simp [followPath, hb0, hb1, ih]
        · simp [followPath, hb0, hb1]

theorem followPath_chars :
    ∀ (p : List Char) (t n : HuffmanNode), followPath t p = Option.some n →
      ∀ b ∈ p, b = '0' ∨ b = '1' := by
  intro p
  induction p with
  | nil => intro t n _ b hb; simp at hb
  | cons b1 p1 ih =>
    intro t n h b hb
    cases t with
    | null => simp [followPath] at h
    | mk f c l r =>
      by_cases hb0 : b1 = '0'
      · rcases List.mem_cons.mp hb with hb | hb
        · exact Or.inl (hb.trans hb0)
        · rw [followPath, if_pos hb0] at h
          exact ih l n h b hb
      · by_cases hb1 : b1 = '1'
        · rcases List.mem_cons.mp hb with hb | hb
          · exact Or.inr (hb.trans hb1)
          · rw [followPath, if_neg hb0, if_pos hb1] at h
            exact ih r n h b hb
        · rw [followPath, if_neg hb0, if_neg hb1] at h
          exact absurd h (by simp)

theorem followPath_leaf (f : Nat) (k : Option Char) (p : List Char) (n : HuffmanNode)
    (h : followPath (HuffmanNode.mk f k HuffmanNode.null HuffmanNode.null) p = Option.some n) :
    p = [] ∧ n = HuffmanNode.mk f k HuffmanNode.null HuffmanNode.null := by
  cases p with
  | nil =>
    simp [followPath] at h
    exact ⟨rfl, h.symm⟩
  | cons b q =>
    by_cases hb0 : b = '0'
    · rw [followPath, if_pos hb0] at h
      simp [followPath] at h
    · by_cases hb1 : b = '1'
      · rw [followPath, if_neg hb0, if_pos hb1] at h
        simp [followPath] at h
      · rw [followPath, if_neg hb0, if_neg hb1] at h
        simp at h

theorem mem_leafChars_of_followPath :
    ∀ (p : List Char) (t : HuffmanNode) (f1 : Nat) (k : Option Char),
      followPath t p = Option.some (HuffmanNode.mk f1 k HuffmanNode.null HuffmanNode.null) →
      k ∈ leafChars t := by
  intro p
  induction p with
  | nil =>
    intro t f1 k h
    cases t with
    | null => simp [followPath] at h
    | mk f c l r =>
      simp only [followPath, Option.some.injEq] at h
      cases h
      simp [leafChars]
  | cons b q ih =>
    intro t f1 k h
    cases t with
    | null => simp [followPath] at h
    | mk f c l r =>
      by_cases hb0 : b = '0'
      · rw [followPath, if_pos hb0] at h
        have hk := ih l f1 k h
        have hl : l.isNode = true := by
          cases l with
          | null => simp [followPath] at h
          | mk => rfl
        rw [leafChars_mk_node _ _ _ _ hl]
        exact Multiset.mem_add.mpr (Or.inl hk)
      · by_cases hb1 : b = '1'
        · rw [followPath, if_neg hb0, if_pos hb1] at h
          have hk := ih r f1 k h
          have hr : r.isNode = true := by
            cases r with
            | null => simp [followPath] at h
            | mk => rfl
          rw [leafChars_mk_node_r _ _ _ _ hr]
          exact Multiset.mem_add.mpr (Or.inr hk)
        · rw [followPath, if_neg hb0, if_neg hb1] at h
          exact absurd h (by simp)

theorem map_codes_untouched :
    ∀ (t : HuffmanNode) (c0 : List Char) (m : CodeDict) (k : Option Char),
      properB t = true → k ∉ leafChars t →
      dictGet? (map_codes t c0 m) k = dictGet? m k := by
  intro t
  induction t with
  | null => intro c0 m k _ _; rfl
  | mk f c l r ihl ihr =>
    intro c0 m k hp hk
    cases l with
    | null =>
      cases r with
      | null =>
        have hkc : k ≠ c := by
          intro habs
          exact hk (by rw [habs]; simp [leafChars])
        rw [map_codes_leaf_eq]
        rw [dictGet_dictSet_ne _ _ _ _ hkc, dictGet_dictSet_ne _ _ _ _ hkc]
      | mk f2 c2 l2 r2 => simp [properB] at hp
    | mk f1 c1 l1 r1 =>
      cases r with
      | null => simp [properB] at hp
      | mk f2 c2 l2 r2 =>
        rw [properB_mk_nodes _ _ _ _ (by rfl) (by rfl)] at hp
        simp only [Bool.and_eq_true] at hp
        rw [leafChars_mk_node _ _ _ _ (by rfl)] at hk
        have hkl : k ∉ leafChars (HuffmanNode.mk f1 c1 l1 r1) := fun hmem =>
          hk (Multiset.mem_add.mpr (Or.inl hmem))
        have hkr : k ∉ leafChars (HuffmanNode.mk f2 c2 l2 r2) := fun hmem =>
          hk (Multiset.mem_add.mpr (Or.inr hmem))
        rw [map_codes_node_eq]
        rw [ihr _ _ _ hp.2 hkr, ihl _ _ _ hp.1 hkl]

theorem map_codes_found :
    ∀ (t : HuffmanNode) (c0 : List Char) (m : CodeDict) (k : Option Char),
      properB t = true → k ∈ leafChars t →
      ∃ p f1, dictGet? (map_codes t c0 m) k = Option.some (c0 ++ p) ∧
        followPath t p = Option.some (HuffmanNode.mk f1 k HuffmanNode.null HuffmanNode.null) := by
  intro t
  induction t with
  | null => intro c0 m k _ hk; simp [leafChars] at hk
  | mk f c l r ihl ihr =>
    intro c0 m k hp hk
    cases l with
    | null =>
      cases r with
      | null =>
        have hkc : k = c := by
          simpa [leafChars] using hk
        subst hkc
        refine ⟨[], f, ?_, by simp [followPath]⟩
        rw [map_codes_leaf_eq, dictGet_dictSet_self]
        simp
      | mk f2 c2 l2 r2 => simp [properB] at hp
    | mk f1 c1 l1 r1 =>
      cases r with
      | null => simp [properB] at hp
      | mk f2 c2 l2 r2 =>
        rw [properB_mk_nodes _ _ _ _ (by rfl) (by rfl)] at hp
        simp only [Bool.and_eq_true] at hp
        rw [leafChars_mk_node _ _ _ _ (by rfl)] at hk
        rw [map_codes_node_eq]
        by_cases hkr : k ∈ leafChars (HuffmanNode.mk f2 c2 l2 r2)
        · obtain ⟨p, fa, hget, hfollow⟩ := ihr (c0 ++ ['1']) _ k hp.2 hkr
          refine ⟨'1' :: p, fa, ?_, ?_⟩
          · rw [hget]
            simp
          · simp [followPath, hfollow]
        · have hkl : k ∈ leafChars (HuffmanNode.mk f1 c1 l1 r1) := by
            rcases Multiset.mem_add.mp hk with h1 | h2
            · exact h1
            · exact absurd h2 hkr
          obtain ⟨p, fa, hget, hfollow⟩ := ihl (c0 ++ ['0']) m k hp.1 hkl
          refine ⟨'0' :: p, fa, ?_, ?_⟩
          · rw [map_codes_untouched _ _ _ k hp.2 hkr, hget]
            simp
          · simp [followPath, hfollow]

theorem map_codes_all_paths :
    ∀ (t : HuffmanNode) (c0 : List Char) (m : CodeDict) (k : Option Char) (code : List Char),
      properB t = true →
      dictGet? (map_codes t c0 m) k = Option.some code →
      dictGet? m k = Option.some code ∨
        ∃ p f1, code = c0 ++ p ∧
          followPath t p = Option.some (HuffmanNode.mk f1 k HuffmanNode.null HuffmanNode.null) := by
  intro t
  induction t with
  | null => intro c0 m k code _ h; exact Or.inl h
  | mk f c l r ihl ihr =>
    intro c0 m k code hp h
    cases l with
    | null =>
      cases r with
      | null =>
        rw [map_codes_leaf_eq] at h
        by_cases hkc : k = c
        · subst hkc
          rw [dictGet_dictSet_self] at h
          refine Or.inr ⟨[], f, ?_, by simp [followPath]⟩
          simp at h
          rw [h]
          simp
        · rw [dictGet_dictSet_ne _ _ _ _ hkc, dictGet_dictSet_ne _ _ _ _ hkc] at h
          exact Or.inl h
      | mk f2 c2 l2 r2 => simp [properB] at hp
    | mk f1 c1 l1 r1 =>
      cases r with
      | null => simp [properB] at hp
      | mk f2 c2 l2 r2 =>
        rw [properB_mk_nodes _ _ _ _ (by rfl) (by rfl)] at hp
        simp only [Bool.and_eq_true] at hp
        rw [map_codes_node_eq] at h
        rcases ihr (c0 ++ ['1']) _ k code hp.2 h with h1 | ⟨p, fa, hc, hfollow⟩
        · rcases ihl (c0 ++ ['0']) m k code hp.1 h1 with h2 | ⟨p, fa, hc, hfollow⟩
          · exact Or.inl h2
          · refine Or.inr ⟨'0' :: p, fa, ?_, ?_⟩
            · rw [hc]; simp
            · simp [followPath, hfollow]
        · refine Or.inr ⟨'1' :: p, fa, ?_, ?_⟩
          · rw [hc]; simp
          · simp [followPath, hfollow]

/-! ### Decoder lemmas -/

theorem pyIntBit_zero : pyIntBit '0' = Except.ok 0 := rfl

theorem pyIntBit_one : pyIntBit '1' = Except.ok 1 := rfl

theorem isNode_mk (f : Nat) (c : Option Char) (l r : HuffmanNode) :
    (HuffmanNode.mk f c l r).isNode = true := rfl

theorem decode_step_zero (tree : HuffmanNode) (f0 : Nat) (c0 : Option Char)
    (fl : Nat) (cl : Option Char) (ll rl r : HuffmanNode) (rest1 : List Char) :
    decodeLoop tree ('0' :: rest1) (HuffmanNode.mk f0 c0 (HuffmanNode.mk fl cl ll rl) r)
      = (if ll = HuffmanNode.null ∧ rl = HuffmanNode.null then
          (match cl with
           | Option.some ch =>
              (match decodeLoop tree rest1 tree with
               | Except.error e => Except.error e
               | Except.ok tail => Except.ok (ch :: tail))
           | Option.none => Except.error PyErr.typeError)
        else decodeLoop tree rest1 (HuffmanNode.mk fl cl ll rl)) := rfl

theorem decode_step_one (tree : HuffmanNode) (f0 : Nat) (c0 : Option Char)
    (fr : Nat) (cr : Option Char) (lr rr l : HuffmanNode) (rest1 : List Char) :
    decodeLoop tree ('1' :: rest1) (HuffmanNode.mk f0 c0 l (HuffmanNode.mk fr cr lr rr))
      = (if lr = HuffmanNode.null ∧ rr = HuffmanNode.null then
          (match cr with
           | Option.some ch =>
              (match decodeLoop tree rest1 tree with
               | Except.error e => Except.error e
               | Except.ok tail => Except.ok (ch :: tail))
           | Option.none => Except.error PyErr.typeError)
        else decodeLoop tree rest1 (HuffmanNode.mk fr cr lr rr)) := rfl

theorem decodeLoop_code :
    ∀ (p : List Char) (n tree : HuffmanNode) (rest : List Char) (f1 : Nat) (ch : Char),
      properB n = true → p ≠ [] →
      followPath n p
        = Option.some (HuffmanNode.mk f1 (Option.some ch) HuffmanNode.null HuffmanNode.null) →
      decodeLoop tree (p ++ rest) n =
        (match decodeLoop tree rest tree with
         | Except.error e => Except.error e
         | Except.ok tail => Except.ok (ch :: tail)) := by
  intro p
  induction p with
  | nil => intro n tree rest f1 ch _ hne _; exact absurd rfl hne
  | cons b q ih =>
    intro n tree rest f1 ch hp _ hfollow
    cases n with
    | null => simp [followPath] at hfollow
    | mk f0 c0 l r =>
      by_cases hb0 : b = '0'
      · subst hb0
        rw [followPath, if_pos rfl] at hfollow
        cases l with
        | null => simp [followPath] at hfollow
        | mk fl cl ll rl =>
          have hpl : properB (HuffmanNode.mk fl cl ll rl) = true := by
            cases r with
            | null => simp [properB] at hp
            | mk fr cr lr rr =>
              rw [properB_mk_nodes _ _ _ _ (by rfl) (by rfl)] at hp
              simp only [Bool.and_eq_true] at hp
              exact hp.1
          cases q with
          | nil =>
            simp only [followPath, Option.some.injEq] at hfollow
            injection hfollow with hfl hcl hll hrl
            subst hcl
            subst hll
            subst hrl
            rw [List.cons_append, List.nil_append, decode_step_zero,
              if_pos ⟨rfl, rfl⟩]
          | cons b2 q2 =>
            have hqne : (b2 :: q2) ≠ ([] : List Char) := by simp
            have hll : ¬(ll = HuffmanNode.null ∧ rl = HuffmanNode.null) := by
              rintro ⟨h1, h2⟩
              subst h1
              subst h2
              obtain ⟨hq, _⟩ := followPath_leaf fl cl (b2 :: q2) _ hfollow
              simp at hq
            rw [List.cons_append, decode_step_zero, if_neg hll]
            exact ih (HuffmanNode.mk fl cl ll rl) tree rest f1 ch hpl hqne hfollow
      · by_cases hb1 : b = '1'
        · subst hb1
          rw [followPath, if_neg (by decide), if_pos rfl] at hfollow
          cases r with
          | null => simp [followPath] at hfollow
          | mk fr cr lr rr =>
            have hpr : properB (HuffmanNode.mk fr cr lr rr) = true := by
              cases l with
              | null => simp [properB] at hp
              | mk fl cl ll rl =>
                rw [properB_mk_nodes _ _ _ _ (by rfl) (by rfl)] at hp
                simp only [Bool.and_eq_true] at hp
                exact hp.2
            cases q with
            | nil =>
              simp only [followPath, Option.some.injEq] at hfollow
              injection hfollow with hfr hcr hlr hrr
              subst hcr
              subst hlr
              subst hrr
              rw [List.cons_append, List.nil_append, decode_step_one,
                if_pos ⟨rfl, rfl⟩]
            | cons b2 q2 =>
              have hqne : (b2 :: q2) ≠ ([] : List Char) := by simp
              have hrr2 : ¬(lr = HuffmanNode.null ∧ rr = HuffmanNode.null) := by
                rintro ⟨h1, h2⟩
                subst h1
                subst h2
                obtain ⟨hq, _⟩ := followPath_leaf fr cr (b2 :: q2) _ hfollow
                simp at hq
              rw [List.cons_append, decode_step_one, if_neg hrr2]
              exact ih (HuffmanNode.mk fr cr lr rr) tree rest f1 ch hpr hqne hfollow
        · rw [followPath, if_neg hb0, if_neg hb1] at hfollow
          exact absurd hfollow (by simp)

theorem encodeData_isSome_ok :
    ∀ (data1 : List Char) (table : CodeDict),
      (∀ c ∈ data1, (dictGet? table (Option.some c)).isSome = true) →
      ∃ bits, encodeData data1 table = Except.ok bits := by
  intro data1
  induction data1 with
  | nil => intro table _; exact ⟨[], rfl⟩
  | cons c rest ih =>
    intro table h
    have hc := h c (List.mem_cons_self c rest)
    cases hg : dictGet? table (Option.some c) with
    | none => rw [hg] at hc; simp at hc
    | some code =>
      obtain ⟨tb, htb⟩ := ih table (fun d hd => h d (List.mem_cons_of_mem c hd))
      refine ⟨code ++ tb, ?_⟩
      simp only [encodeData, hg, htb]

theorem decode_encode :
    ∀ (data1 : List Char) (root : HuffmanNode) (table : CodeDict) (bits : List Char),
      properB root = true →
      (∀ c ∈ data1, ∃ p f1, dictGet? table (Option.some c) = Option.some p ∧ p ≠ [] ∧
        followPath root p
          = Option.some (HuffmanNode.mk f1 (Option.some c) HuffmanNode.null HuffmanNode.null)) →
      encodeData data1 table = Except.ok bits →
      decodeLoop root bits root = Except.ok data1 := by
  intro data1
  induction data1 with
  | nil =>
    intro root table bits _ _ henc
    simp only [encodeData] at henc
    cases henc
    rfl
  | cons c rest ih =>
    intro root table bits hproper hcodes henc
    obtain ⟨p, f1, hget, hpne, hfollow⟩ := hcodes c (List.mem_cons_self c rest)
    simp only [encodeData, hget] at henc
    split at henc
    · exact absurd henc (by simp)
    · rename_i tb htb
      cases henc
      have hrest := ih root table tb hproper
        (fun d hd => hcodes d (List.mem_cons_of_mem c hd)) htb
      rw [decodeLoop_code p root root tb f1 c hproper hpne hfollow, hrest]

/-! ### Inversion of `huffman_encoding` and the code-table lookups -/

theorem huffman_encoding_inv (data bits : List Char) (tree : HuffmanNode)
    (hne : data ≠ []) (h : huffman_encoding data = Except.ok (bits, tree)) :
    build_tree (map_frequency data) = Except.ok tree ∧
      encodeData data (map_codes tree [] []) = Except.ok bits ∧ tree.isNode = true := by
  simp only [huffman_encoding] at h
  rw [if_neg (by simpa using hne)] at h
  split at h
  · exact absurd h (by simp)
  · exact absurd h (by simp)
  · rename_i f c l r hbuild
    split at h
    · exact absurd h (by simp)
    · rename_i bits2 henc
      cases h
      exact ⟨hbuild, henc, rfl⟩

theorem table_lookup (data : List Char) (root : HuffmanNode) (hne : data ≠ [])
    (hb : build_tree (map_frequency data) = Except.ok root) :
    ∀ c ∈ data, ∃ p f1,
      dictGet? (map_codes root [] []) (Option.some c) = Option.some p ∧ p ≠ [] ∧
      followPath root p
        = Option.some (HuffmanNode.mk f1 (Option.some c) HuffmanNode.null HuffmanNode.null) := by
  obtain ⟨r1, r2, r3, r4, r5, r6⟩ := build_tree_data data root hne hb
  intro c hc
  have hk : Option.some c ∈ leafChars root := by
    rw [r5]
    simp only [seedChars]
    refine Multiset.mem_add.mpr (Or.inr ?_)
    have hmem : c ∈ (countAll data).map Prod.fst := (countAll_keys data c).mpr hc
    obtain ⟨p, hp1, hp2⟩ := List.mem_map.mp hmem
    rw [Multiset.mem_coe]
    exact List.mem_map.mpr ⟨p, hp1, by rw [hp2]⟩
  obtain ⟨p, f1, hget, hfollow⟩ := map_codes_found root [] [] (Option.some c) r2 hk
  have hpne : p ≠ [] := by
    intro habs
    subst habs
    cases root with
    | null => simp [followPath] at hfollow
    | mk f0 c0 l r =>
      simp only [followPath, Option.some.injEq] at hfollow
      rw [hfollow] at r6
      simp [isLeafB] at r6
  exact ⟨p, f1, by simpa using hget, hpne, hfollow⟩

/-! ### Remaining helper lemmas -/

theorem isCodePre_append :
    ∀ (a b : List Char), isCodePre a b = true → ∃ q, b = a ++ q := by
  intro a
  induction a with
  | nil => intro b _; exact ⟨b, rfl⟩
  | cons x xs ih =>
    intro b h
    cases b with
    | nil => simp [isCodePre] at h
    | cons y ys =>
      simp only [isCodePre, Bool.and_eq_true, decide_eq_true_eq] at h
      obtain ⟨hxy, h2⟩ := h
      subst hxy
      obtain ⟨q, hq⟩ := ih ys h2
      exact ⟨q, by rw [hq]; rfl⟩

theorem decode_amended_agree :
    ∀ (bits : List Char) (tree cur : HuffmanNode),
      (∀ b ∈ bits, b = '0' ∨ b = '1') →
      decodeLoop tree bits cur = decodeAmendedLoop tree bits cur := by
  intro bits
  induction bits with
  | nil => intro tree cur _; rfl
  | cons b rest ih =>
    intro tree cur hb
    have htail : ∀ x ∈ rest, x = '0' ∨ x = '1' :=
      fun x hx => hb x (List.mem_cons_of_mem b hx)
    rcases hb b (List.mem_cons_self b rest) with hb0 | hb1
    · subst hb0
      cases cur with
      | null => rfl
      | mk f c l r =>
        simp only [decodeLoop, decodeAmendedLoop, pyIntBit_zero]
        cases l with
        | null =>
          cases r with
          | null => simp [isLeafB, HuffmanNode.isNode, HuffmanNode.char, ih tree tree htail]
          | mk fr cr lr rr =>
            simpa [isLeafB, HuffmanNode.isNode] using
              ih tree (HuffmanNode.mk f c HuffmanNode.null (HuffmanNode.mk fr cr lr rr)) htail
        | mk fl cl ll rl =>
          by_cases hleaf : ll = HuffmanNode.null ∧ rl = HuffmanNode.null
          · obtain ⟨hh1, hh2⟩ := hleaf
            subst hh1
            subst hh2
            simp [isLeafB, HuffmanNode.isNode, HuffmanNode.char, ih tree tree htail]
          · have hlf : isLeafB (HuffmanNode.mk fl cl ll rl) = false := by
              cases ll <;> cases rl <;> simp_all [isLeafB]
            simp [isLeafB, HuffmanNode.isNode, hleaf, hlf,
              ih tree (HuffmanNode.mk fl cl ll rl) htail]
    · subst hb1
      cases cur with
      | null => rfl
      | mk f c l r =>
        simp only [decodeLoop, decodeAmendedLoop, pyIntBit_one]
        cases r with
        | null =>
          cases l with
          | null => simp [isLeafB, HuffmanNode.isNode, HuffmanNode.char, ih tree tree htail]
          | mk fl cl ll rl =>
            simpa [isLeafB, HuffmanNode.isNode] using
              ih tree (HuffmanNode.mk f c (HuffmanNode.mk fl cl ll rl) HuffmanNode.null) htail
        | mk fr cr lr rr =>
          by_cases hleaf : lr = HuffmanNode.null ∧ rr = HuffmanNode.null
          · obtain ⟨hh1, hh2⟩ := hleaf
            subst hh1
            subst hh2
            simp [isLeafB, HuffmanNode.isNode, HuffmanNode.char, ih tree tree htail]
          · have hlf : isLeafB (HuffmanNode.mk fr cr lr rr) = false := by
              cases lr <;> cases rr <;> simp_all [isLeafB]
            simp [isLeafB, HuffmanNode.isNode, hleaf, hlf,
              ih tree (HuffmanNode.mk fr cr lr rr) htail]

/-! ### The claims -/

/-- Claim C1: round-trip — for every non-empty symbol sequence on which
`huffman_encoding` returns normally, decoding the bitstring it returned with
the tree it returned yields exactly the original sequence. -/
theorem c1_round_trip (data bits : List Char) (tree : HuffmanNode)
    (hne : data ≠ []) (henc : huffman_encoding data = Except.ok (bits, tree)) :
    huffman_decoding bits tree = Except.ok data := by
  obtain ⟨hbuild, hencode, _⟩ := huffman_encoding_inv data bits tree hne henc
  obtain ⟨_, r2, _, _, _, _⟩ := build_tree_data data tree hne hbuild
  exact decode_encode data tree (map_codes tree [] []) bits r2
    (table_lookup data tree hne hbuild) hencode

/-- Witness for C1 at the concrete non-empty input `"ab"`. -/
theorem c1_round_trip_witness :
    huffman_encoding ['a', 'b'] = Except.ok (['0', '1'], abTree) ∧
      huffman_decoding ['0', '1'] abTree = Except.ok ['a', 'b'] :=
  ⟨rfl, c1_round_trip ['a', 'b'] ['0', '1'] abTree (by decide) rfl⟩

/-- Claim C2 (refuted; the code contradicts its own line-125 comment and the
spec's intent): the tuple-comparison error branch is reachable.  Only merged
entries carry the `str(p3)` sequence tag; the initial entries carry the
symbol itself, so on input `"00ab"` the queue compares `(2, "0", leaf)`
against the merged `(2, "0", parent)` — the first two components tie and
comparison falls through to the two `HuffmanNode` objects, raising
`TypeError`. -/
theorem c2_comparison_type_error :
    build_tree (map_frequency ['0', '0', 'a', 'b']) = Except.error PyErr.typeError ∧
      huffman_encoding ['0', '0', 'a', 'b'] = Except.error PyErr.typeError :=
  ⟨rfl, rfl⟩

/-- Counterexample for C3: on the tree built for `"ab"`, the step relation
written in the spec (move only when the target child is an internal node,
i.e. has children) decodes `"01"` to the empty string, while the code's
decoder (which moves whenever the child is present) decodes it to `"ab"`. -/
theorem c3_spec_step_counterexample :
    huffman_encoding ['a', 'b'] = Except.ok (['0', '1'], abTree) ∧
      decodeSpecLoop abTree ['0', '1'] abTree = Except.ok [] ∧
      huffman_decoding ['0', '1'] abTree = Except.ok ['a', 'b'] ∧
      (Except.ok ([] : List Char) : Except PyErr (List Char)) ≠ Except.ok ['a', 'b'] :=
  ⟨rfl, rfl, rfl, by simp⟩

/-- Claim C3 as amended: for bitstrings over `{0,1}`, the decoder follows the
step relation in which the cursor moves to the left child on `"0"` and to
the right child on `"1"` whenever that child is present (a node — internal
or leaf); after the possibly skipped move, if the cursor node has both
children absent its symbol is appended and the cursor resets to the root. -/
theorem c3_decoder_step_amended (bits : List Char) (tree : HuffmanNode)
    (hb : ∀ b ∈ bits, b = '0' ∨ b = '1') :
    huffman_decoding bits tree = decodeAmendedLoop tree bits tree :=
  decode_amended_agree bits tree tree hb

/-- Witness for the amended C3 at the concrete input `"01"` on the `"ab"`
tree. -/
theorem c3_decoder_step_amended_witness :
    huffman_decoding ['0', '1'] abTree = decodeAmendedLoop abTree ['0', '1'] abTree :=
  c3_decoder_step_amended ['0', '1'] abTree (by decide)

/-- Claim C4: code-table correctness — for the table walked from the tree
built for any non-empty input, every distinct input symbol maps to a
non-empty bitstring over `{0,1}`, the table's character keys are exactly the
input's distinct symbols, and no code in the table is a prefix of another
entry's code. -/
theorem c4_code_table (data : List Char) (t : HuffmanNode)
    (hne : data ≠ []) (hbuild : build_tree (map_frequency data) = Except.ok t) :
    (∀ c ∈ data, ∃ code,
        dictGet? (map_codes t [] []) (Option.some c) = Option.some code ∧
        code ≠ [] ∧ ∀ b ∈ code, b = '0' ∨ b = '1')
    ∧ (∀ c : Char, (dictGet? (map_codes t [] []) (Option.some c)).isSome = true → c ∈ data)
    ∧ (∀ (k1 k2 : Option Char) (c1 c2 : List Char),
        dictGet? (map_codes t [] []) k1 = Option.some c1 →
        dictGet? (map_codes t [] []) k2 = Option.some c2 →
        k1 ≠ k2 → isCodePre c1 c2 = false) := by
  obtain ⟨r1, r2, r3, r4, r5, r6⟩ := build_tree_data data t hne hbuild
  refine ⟨?_, ?_, ?_⟩
  · intro c hc
    obtain ⟨p, f1, hget, hpne, hfollow⟩ := table_lookup data t hne hbuild c hc
    exact ⟨p, hget, hpne, followPath_chars p t _ hfollow⟩
  · intro c hsome
    cases hg : dictGet? (map_codes t [] []) (Option.some c) with
    | none => rw [hg] at hsome; simp at hsome
    | some code =>
      rcases map_codes_all_paths t [] [] (Option.some c) code r2 hg with habs | ⟨p, f1, hcp, hfollow⟩
      · simp [dictGet?] at habs
      · have hmem := mem_leafChars_of_followPath p t f1 (Option.some c) hfollow
        rw [r5] at hmem
        simp only [seedChars] at hmem
        rcases Multiset.mem_add.mp hmem with h1 | h2
        · split at h1
          · simp at h1
          · simp at h1
        · rw [Multiset.mem_coe] at h2
          obtain ⟨pp, hpp1, hpp2⟩ := List.mem_map.mp h2
          have hppc : pp.1 = c := Option.some.inj hpp2
          rw [← hppc]
          exact (countAll_keys data pp.1).mp (List.mem_map.mpr ⟨pp, hpp1, rfl⟩)
  · intro k1 k2 c1 c2 hg1 hg2 hk12
    rcases map_codes_all_paths t [] [] k1 c1 r2 hg1 with habs | ⟨p1, fa1, hcp1, hf1⟩
    · simp [dictGet?] at habs
    · rcases map_codes_all_paths t [] [] k2 c2 r2 hg2 with habs | ⟨p2, fa2, hcp2, hf2⟩
      · simp [dictGet?] at habs
      · simp only [List.nil_append] at hcp1 hcp2
        subst hcp1
        subst hcp2
        cases hic : isCodePre c1 c2 with
        | false => rfl
        | true =>
          obtain ⟨q, hq⟩ := isCodePre_append c1 c2 hic
          rw [hq, followPath_append, hf1] at hf2
          simp only at hf2
          obtain ⟨hq0, hleaf⟩ := followPath_leaf fa1 k1 q _ hf2
          injection hleaf with hfa hkk _ _
          exact absurd hkk.symm hk12

/-- Witness for C4 at the concrete input `"ab"`: the codes of the two keys
`'a'` and `'b'` are not prefixes of one another. -/
theorem c4_code_table_witness : isCodePre ['0'] ['1'] = false :=
  (c4_code_table ['a', 'b'] abTree (by decide) rfl).2.2 (Option.some 'a') (Option.some 'b')
    ['0'] ['1'] rfl rfl (by decide)

/-- Claim C5: the frequency mapper prepends the synthetic dummy entry
`(0, None, HuffmanNode(0, None))` exactly when the input has one distinct
symbol, and `huffman_encoding "aaaaaa"` yields the 6-character bitstring
`"111111"` (a single repeated bit) whose decoding with the returned tree
reproduces `"aaaaaa"`. -/
theorem c5_single_symbol :
    (∀ data : List Char, data ≠ [] → (countAll data).length = 1 →
      map_frequency data
        = ((0 : Nat), PyTag.pyNone,
            HuffmanNode.mk 0 Option.none HuffmanNode.null HuffmanNode.null)
          :: (countAll data).map
              (fun p => (p.2, PyTag.str [p.1],
                HuffmanNode.mk p.2 (Option.some p.1) HuffmanNode.null HuffmanNode.null)))
    ∧ huffman_encoding (List.replicate 6 'a') = Except.ok (List.replicate 6 '1', singleATree)
    ∧ (List.replicate 6 '1').length = 6
    ∧ (List.replicate 6 '1').all (fun b => b == '1') = true
    ∧ huffman_decoding (List.replicate 6 '1') singleATree = Except.ok (List.replicate 6 'a') := by
  refine ⟨?_, rfl, rfl, by decide, rfl⟩
  intro data hne hlen
  simp only [map_frequency]
  rw [if_neg (by simpa using hne), if_pos hlen]
  simp

/-- Witness for the universally quantified part of C5 at the concrete
single-symbol input `"a"`. -/
theorem c5_single_symbol_witness :
    map_frequency ['a']
      = [((0 : Nat), PyTag.pyNone,
          HuffmanNode.mk 0 Option.none HuffmanNode.null HuffmanNode.null),
         ((1 : Nat), PyTag.str ['a'],
          HuffmanNode.mk 1 (Option.some 'a') HuffmanNode.null HuffmanNode.null)] :=
  c5_single_symbol.1 ['a'] (by decide) (by decide)

/-- Claim C6: weight invariant — in every tree returned by a normal run of
`huffman_encoding` on a non-empty input, every node with both children
present weighs the sum of its children's weights, and the root's weight is
the input length. -/
theorem c6_weight_invariant (data bits : List Char) (tree : HuffmanNode)
    (hne : data ≠ []) (henc : huffman_encoding data = Except.ok (bits, tree)) :
    weightsOK tree = true ∧ tree.freq = data.length := by
  obtain ⟨hbuild, _, _⟩ := huffman_encoding_inv data bits tree hne henc
  obtain ⟨_, _, r3, r4, _, _⟩ := build_tree_data data tree hne hbuild
  exact ⟨r3, r4⟩

/-- Witness for C6 at the concrete input `"ab"`. -/
theorem c6_weight_invariant_witness :
    weightsOK abTree = true ∧ abTree.freq = (['a', 'b'] : List Char).length :=
  c6_weight_invariant ['a', 'b'] ['0', '1'] abTree (by decide) rfl

/-- Claim C7: all-or-nothing child invariant — every node reachable from a
tree returned by `huffman_encoding` has both children present or both
absent, never exactly one (`properB` checks this recursively over all
reachable nodes), so "both children absent" is a sound leaf test. -/
theorem c7_all_or_nothing (data bits : List Char) (tree : HuffmanNode)
    (henc : huffman_encoding data = Except.ok (bits, tree)) :
    properB tree = true := by
  by_cases hne : data = []
  · subst hne
    simp only [huffman_encoding, List.isEmpty_nil, if_true] at henc
    injection henc with hpair
    have ht : tree = HuffmanNode.null := (congrArg Prod.snd hpair).symm
    rw [ht]
    rfl
  · exact (build_tree_data data tree hne
      (huffman_encoding_inv data bits tree hne henc).1).2.1

/-- Witness for C7 at the concrete input `"ab"`. -/
theorem c7_all_or_nothing_witness : properB abTree = true :=
  c7_all_or_nothing ['a', 'b'] ['0', '1'] abTree rfl

/-- Claim C8: `MissingCode` is unreachable — `huffman_encoding` never raises
`KeyError`: every symbol of the input is a key of the code table built from
that input's tree, so the encoding loop's lookups always succeed (the only
error the function can produce is the `TypeError` of claim C2's queue
comparisons). -/
theorem c8_no_missing_code (data : List Char) :
    huffman_encoding data ≠ Except.error PyErr.keyError := by
  intro h
  by_cases hne : data = []
  · subst hne
    simp [huffman_encoding] at h
  · simp only [huffman_encoding] at h
    rw [if_neg (by simpa using hne)] at h
    split at h
    · rename_i e hbuild
      injection h with he
      have hmne : map_frequency data ≠ [] := by
        have hlen := map_frequency_length data hne
        intro habs
        rw [habs] at hlen
        simp at hlen
      have hte := build_tree_err (map_frequency data) e hmne hbuild
      rw [hte] at he
      simp at he
    · injection h with he
      simp at he
    · rename_i f c l r hbuild
      split at h
      · rename_i e2 henc
        have hlk := table_lookup data (HuffmanNode.mk f c l r) hne hbuild
        have hsome : ∀ ch ∈ data,
            (dictGet? (map_codes (HuffmanNode.mk f c l r) [] [])
              (Option.some ch)).isSome = true := by
          intro ch hc
          obtain ⟨p, f1, hget, _, _⟩ := hlk ch hc
          rw [hget]
          rfl
        obtain ⟨bits, hbits⟩ := encodeData_isSome_ok data _ hsome
        rw [hbits] at henc
        simp at henc
      · exact absurd h (by simp)

/-- Witness instance of C8 at the concrete input `"a"`. -/
theorem c8_no_missing_code_witness :
    huffman_encoding ['a'] ≠ Except.error PyErr.keyError :=
  c8_no_missing_code ['a']

/-- Claim C9: determinism — two runs of `huffman_encoding` on the same input
that both return produce the same bitstring and the same tree (the
embedding is a function of the input alone: frequency map, heap operations
and tie-breaking included). -/
theorem c9_determinism (data b1 b2 : List Char) (t1 t2 : HuffmanNode)
    (h1 : huffman_encoding data = Except.ok (b1, t1))
    (h2 : huffman_encoding data = Except.ok (b2, t2)) :
    b1 = b2 ∧ t1 = t2 := by
  rw [h1] at h2
  injection h2 with h3
  exact ⟨congrArg Prod.fst h3, congrArg Prod.snd h3⟩

/-- Witness for C9 at the concrete input `"ab"`. -/
theorem c9_determinism_witness : (['0', '1'] : List Char) = ['0', '1'] ∧ abTree = abTree :=
  c9_determinism ['a', 'b'] ['0', '1'] ['0', '1'] abTree abTree rfl rfl

/-- Claim C10: empty input — `huffman_encoding` of an empty sequence returns
`("", None)` via the falsy guard, and the same result comes back for every
falsy input value (`None`, `False`, the empty dict, the empty string). -/
theorem c10_empty_input :
    (∀ v : PyObj, pyBool v = false → huffman_encodingObj v = Except.ok ([], HuffmanNode.null))
    ∧ huffman_encoding [] = Except.ok ([], HuffmanNode.null)
    ∧ huffman_encodingObj PyObj.pyNoneV = Except.ok ([], HuffmanNode.null)
    ∧ huffman_encodingObj (PyObj.pyBool false) = Except.ok ([], HuffmanNode.null)
    ∧ huffman_encodingObj PyObj.pyEmptyDict = Except.ok ([], HuffmanNode.null) := by
  refine ⟨?_, rfl, rfl, rfl, rfl⟩
  intro v hv
  simp [huffman_encodingObj, hv]

/-- Witness for the universally quantified part of C10 at the falsy value
`""` (the empty string). -/
theorem c10_empty_input_witness :
    pyBool (PyObj.pyStr []) = false ∧
      huffman_encodingObj (PyObj.pyStr []) = Except.ok ([], HuffmanNode.null) :=
  ⟨rfl, c10_empty_input.1 (PyObj.pyStr []) rfl⟩

end Problem3
